import Mathlib

/-!
# A verification model of the buf LSP file-state subsystem

This file gives a shallow embedding, in Lean, of the core of the `buflsp`
language server: the URI normalizer (`private/buf/buflsp/file/uri.go`), the
overlay / multi-source virtual file system (`file/overlay.go`,
`file_multi_source.go`, `file_filesystem.go`), the diagnostic sink
(`DiagnosticClient`), the semantic-token delta encoder
(`semantic_token.go`), the nearest-node query (`parser/file.go`,
`parser/position.go`), the versioned parse cache (`parser/file.go` and the
`Parser` in the `parser` package), and the file manager's recursive import
walk (`file_manager.go`).

Go maps are embedded as association lists (the binding for a key is
replaced in place on overwrite, so insertion order of first occurrences is
preserved, mirroring that a Go map holds at most one binding per key).
Machine integers (`int32`, `uint32`) are embedded as `Int` / `Nat`;
wrap-around is made explicit (`% 2^32`) at the one place the Go code
subtracts `uint32`s.  Fallible Go functions return `Except`/`Option`.
External collaborators (the protocompile parser, the disk bucket, the
module walker) are parameters of the model: the embedding takes them as
functions, and concrete instantiations are supplied where a theorem needs
a closed computation.
-/

namespace BufLsp

/-! ## Association-list embedding of Go maps -/

/-- Go map lookup: `m[k]` of a Go map embedded as an association list. -/
def lookupA {κ α : Type} [DecidableEq κ] : List (κ × α) → κ → Option α
  | [], _ => none
  | (k, a) :: rest, k' => if k = k' then some a else lookupA rest k'

/-- Go map store `m[k] = a`: replace the binding in place if the key is
present, otherwise append a new binding. -/
def insertA {κ α : Type} [DecidableEq κ] : List (κ × α) → κ → α → List (κ × α)
  | [], k', a' => [(k', a')]
  | (k, a) :: rest, k', a' =>
    if k = k' then (k, a') :: rest else (k, a) :: insertA rest k' a'

/-- Go map deletion `delete(m, k)`. -/
def eraseA {κ α : Type} [DecidableEq κ] : List (κ × α) → κ → List (κ × α)
  | [], _ => []
  | (k, a) :: rest, k' => if k = k' then rest else (k, a) :: eraseA rest k'

/-- The values of a Go map (`for _, v := range m`). -/
def valuesA {κ α : Type} : List (κ × α) → List α :=
  List.map Prod.snd

theorem lookupA_insertA_self {κ α : Type} [DecidableEq κ]
    (m : List (κ × α)) (k : κ) (a : α) : lookupA (insertA m k a) k = some a := by
  induction m with
  | nil => simp [insertA, lookupA]
  | cons p rest ih =>
    obtain ⟨k', a'⟩ := p
    by_cases h : k' = k <;> simp [insertA, lookupA, h, ih]

theorem lookupA_insertA_ne {κ α : Type} [DecidableEq κ]
    (m : List (κ × α)) (k k' : κ) (a : α) (hne : k ≠ k') :
    lookupA (insertA m k a) k' = lookupA m k' := by
  induction m with
  | nil => simp [insertA, lookupA, hne]
  | cons p rest ih =>
    obtain ⟨k₀, a₀⟩ := p
    by_cases h : k₀ = k
    · subst h
      simp [insertA, lookupA, hne]
    · simp [insertA, lookupA, h, ih]

/-! ## URI normalizer (`private/buf/buflsp/file/uri.go`)

Strings stand for Go strings; the host OS is Unix (`GOOS = linux`), so
`filepath.IsAbs` is "starts with `/`" and the path separator is `/`.

Two tiny dependency functions are embedded from their sources rather than
from this repository: `go.lsp.dev/uri.New` returns its argument unchanged
(a cast to the `URI` string type), and `uri.FileScheme` is the string
`"file"`.  `(&url.URL{Scheme: "file", Path: p}).String()` renders as
`"file://" ++ escapedPath p` for an absolute `p`; the percent-escaping of
the path is kept abstract as a parameter `esc`, since no claim depends on
which characters are escaped. -/

/-- Model of `strings.HasPrefix(s, pre)`, embedded on the character lists of the
two strings. -/
def goHasPrefix (s pre : String) : Bool := pre.data.isPrefixOf s.data

/-- Constant `uri.FileScheme` of `go.lsp.dev/uri`. -/
def uriFileScheme : String := "file"

/-- Model of `uri.New` of `go.lsp.dev/uri`: a cast of the string to the URI type. -/
def uriNew (s : String) : String := s

/-- Model of `filepath.IsAbs` on Unix. -/
def filepathIsAbs (s : String) : Bool := goHasPrefix s "/"

/-- Model of `URI.Filename()` of `go.lsp.dev/uri` on a `file://`-schemed URI:
strip the `file://` prefix (percent-decoding of exotic characters is not
exercised by the claims). -/
def uriFilename (u : String) : String :=
  u.drop "file://".length

/-- Embedding of `file.URI2Filename`: `Filename()` for file-schemed URIs, the raw
string otherwise. -/
def URI2Filename (u : String) : String :=
  if goHasPrefix u uriFileScheme then uriFilename u else u

/-- Embedding of `file.NormalURIStr`, parametrized by the `net/url` path escaper `esc`:
file-schemed strings are returned via `uri.New`; absolute paths are
wrapped as `file://` URLs; anything else is returned as a relative URI. -/
def NormalURIStr (esc : String → String) (u : String) : String :=
  if goHasPrefix u uriFileScheme then
    uriNew u
  else if filepathIsAbs u then
    uriNew ("file://" ++ esc u)
  else
    u

/-- Embedding of `file.IsDocumentURI`: file-schemed and the decoded path is absolute. -/
def IsDocumentURI (u : String) : Bool :=
  goHasPrefix u uriFileScheme && filepathIsAbs (uriFilename u)

theorem goHasPrefix_file_url (x : String) :
    goHasPrefix ("file://" ++ x) uriFileScheme = true := by
  have h : uriFileScheme.data <+: ("file://" ++ x).data := by
    have h1 : uriFileScheme.data <+: "file://".data := by decide
    have h2 : "file://".data <+: ("file://" ++ x).data := by
      simp [String.data_append]
    exact h1.trans h2
  simpa [goHasPrefix] using List.isPrefixOf_iff_prefix.mpr h

/-! ## Theorem for C9 -/

/-- C9. Applying the URI normalizer twice gives the same result as
applying it once: `NormalURIStr (NormalURIStr s) = NormalURIStr s`, for
every string `s` and every path-escaping function. -/
theorem normalURIStr_idempotent (esc : String → String) (s : String) :
    NormalURIStr esc (NormalURIStr esc s) = NormalURIStr esc s := by
  unfold NormalURIStr uriNew
  by_cases h₁ : goHasPrefix s uriFileScheme
  · simp [h₁]
  · by_cases h₂ : filepathIsAbs s
    · simp [h₁, h₂, goHasPrefix_file_url]
    · simp [h₁, h₂]

/-! ## File handles, overlays and the composed per-folder source
(`file/file.go`, `file/overlay.go`, `file_multi_source.go`,
`file_filesystem.go`)

The overlay / manager layers call `file.NormalURIStr`; on the
slash-and-alphanumeric path alphabet exercised there the `net/url` path
escaper is the identity, so this layer instantiates `esc := id`. -/

/-- Specialization of `file.NormalURIStr` as used by the filesystem and manager layers. -/
def normURI : String → String := NormalURIStr id

/-- A `file.Handle`: a read-only view of a file's bytes at a version.
`content = none` embeds a memoized read error (`Content()` returning a
non-nil `error`). -/
structure Handle where
  uri : String
  version : Int
  content : Option String
  deriving DecidableEq, Repr

/-- An editor overlay (`file.Overlay`). -/
structure Overlay where
  root : String
  uri : String
  content : String
  version : Int
  deriving DecidableEq, Repr

/-- An overlay served as a `file.Handle` (`Overlay.URI/Version/Content`). -/
def Overlay.toHandle (o : Overlay) : Handle :=
  ⟨o.uri, o.version, some o.content⟩

/-- Errors surfaced by the modelled filesystem layer. -/
inductive FsErr
  | emptyURI
  | notInclude
  | notExist
  | invalidURI
  deriving DecidableEq, Repr

/-- Model of `filepath.Join` for clean components (the `Clean` pass is the identity
on the already-clean paths the claims exercise). -/
def filepathJoin (a b : String) : String := a ++ "/" ++ b

/-- Whether `filepath.Rel(base, targ)` succeeds.  On Unix, for a base
without `..` segments (workspace roots here), `Rel` fails iff exactly one
of the two cleaned paths is rooted; when both are absolute it always
succeeds, ascending with `..` segments as needed.  Only success/failure of
`Rel` is consulted by `OverlayFS.Open`. -/
def filepathRelOk (base targ : String) : Bool :=
  filepathIsAbs base == filepathIsAbs targ

/-- The mutable state of a `file.OverlayFS`: its root and its overlay map. -/
structure OverlayFS where
  root : String
  overlays : List (String × Overlay)
  deriving DecidableEq, Repr

/-- Embedding of `OverlayFS.checkURI`: non-document URIs are joined onto the root and
normalized to a document URI. -/
def OverlayFS.checkURI (fs : OverlayFS) (u : String) : String :=
  if ¬ IsDocumentURI u then normURI (filepathJoin fs.root u) else u

/-- Embedding of `OverlayFS.ReadFile`: serve the overlay if one exists for the
normalized URI, else delegate (the delegate — the disk source — is a
parameter). -/
def OverlayFS.ReadFile (fs : OverlayFS) (delegate : String → Except FsErr Handle)
    (uri : String) : Except FsErr Handle :=
  let uri := fs.checkURI uri
  match lookupA fs.overlays uri with
  | some o => .ok o.toHandle
  | none => delegate uri

/-- Embedding of `OverlayFS.Open`: reject empty URIs; for document URIs, reject when
`filepath.Rel(root, filename)` fails; otherwise normalize the URI, set the
root, and insert — updating content and version in place when an overlay
for that URI already exists.  Returns the updated state and the stored
overlay. -/
def OverlayFS.Open (fs : OverlayFS) (o : Overlay) : Except FsErr (OverlayFS × Overlay) :=
  if o.uri = "" then .error .emptyURI
  else if IsDocumentURI o.uri && !filepathRelOk fs.root (uriFilename o.uri) then
    .error .notInclude
  else
    let uri' := fs.checkURI o.uri
    match lookupA fs.overlays uri' with
    | some oo =>
      let oo' := { oo with content := o.content, version := o.version }
      .ok ({ fs with overlays := insertA fs.overlays uri' oo' }, oo')
    | none =>
      let o' := { o with uri := uri', root := fs.root }
      .ok ({ fs with overlays := insertA fs.overlays uri' o' }, o')

/-- Embedding of `OverlayFS.Close`: normalize and delete. -/
def OverlayFS.Close (fs : OverlayFS) (uri : String) : OverlayFS :=
  { fs with overlays := eraseA fs.overlays (fs.checkURI uri) }

/-- Embedding of `folder.Souce().ReadFile`: the folder's composed source is
`MultiSource(overlayfs, modssource)`, trying each source in order and
returning the first success (`MultiSource.ReadFile`). -/
def folderReadFile (fs : OverlayFS) (disk mods : String → Except FsErr Handle)
    (uri : String) : Except FsErr Handle :=
  match fs.ReadFile disk uri with
  | .ok h => .ok h
  | .error _ =>
    match mods uri with
    | .ok h => .ok h
    | .error _ => .error .notExist

/-! ## Theorems for C4 and C7 -/

/-- C4. If a folder's overlay map holds an overlay for (the normalized
form of) `u`, reading `u` through the folder's composed source returns
exactly that overlay's handle — hence its content — whatever the disk and
module sources below it return. -/
theorem folder_read_overlay_shadows (fs : OverlayFS)
    (disk mods : String → Except FsErr Handle) (u : String) (o : Overlay)
    (h : lookupA fs.overlays (fs.checkURI u) = some o) :
    folderReadFile fs disk mods u = .ok o.toHandle ∧
      (o.toHandle).content = some o.content := by
  simp [folderReadFile, OverlayFS.ReadFile, h, Overlay.toHandle]

/-- Witness for C4: a folder rooted at `/w` with an overlay for
`file:///w/a.proto` serves the overlay's content `B`. -/
theorem folder_read_overlay_shadows_witness :
    let o : Overlay := ⟨"/w", "file:///w/a.proto", "B", 1⟩
    let fs : OverlayFS := ⟨"/w", [("file:///w/a.proto", o)]⟩
    let disk : String → Except FsErr Handle := fun u => .ok ⟨u, -1, some "A"⟩
    folderReadFile fs disk (fun _ => .error .notExist) "file:///w/a.proto" =
      .ok ⟨"file:///w/a.proto", 1, some "B"⟩ := by
  exact (folder_read_overlay_shadows
    ⟨"/w", [("file:///w/a.proto", ⟨"/w", "file:///w/a.proto", "B", 1⟩)]⟩
    (fun u => .ok ⟨u, -1, some "A"⟩) (fun _ => .error .notExist)
    "file:///w/a.proto" ⟨"/w", "file:///w/a.proto", "B", 1⟩ (by decide)).1

/-- C7, evaluated at the failing input.  `OverlayFS.Open` on a folder
rooted at `/w`, offered an overlay whose document URI
`file:///x/y.proto` does *not* lie under `/w`, succeeds and inserts the
overlay (because `filepath.Rel` succeeds for any two absolute paths,
answering `../x/y.proto`), where the claim demands an error and an
unchanged overlay map. -/
theorem overlayFS_open_accepts_outside_root :
    OverlayFS.Open ⟨"/w", []⟩ ⟨"", "file:///x/y.proto", "B", 1⟩ =
      .ok (⟨"/w", [("file:///x/y.proto", ⟨"/w", "file:///x/y.proto", "B", 1⟩)]⟩,
        ⟨"/w", "file:///x/y.proto", "B", 1⟩) ∧
    (⟨"/w", [("file:///x/y.proto", ⟨"/w", "file:///x/y.proto", "B", 1⟩)]⟩ : OverlayFS) ≠
      ⟨"/w", []⟩ := by
  exact ⟨rfl, by decide⟩

/-! ## Additional Go-map lemmas -/

/-- The keys of an embedded Go map. -/
def keysA {κ α : Type} (m : List (κ × α)) : List κ := m.map Prod.fst

theorem lookupA_insertA {κ α : Type} [DecidableEq κ]
    (m : List (κ × α)) (k k' : κ) (a : α) :
    lookupA (insertA m k a) k' = if k = k' then some a else lookupA m k' := by
  by_cases h : k = k'
  · subst h
    simp [lookupA_insertA_self]
  · simp [h, lookupA_insertA_ne m k k' a h]

theorem keysA_insertA {κ α : Type} [DecidableEq κ]
    (m : List (κ × α)) (k : κ) (a : α) :
    keysA (insertA m k a) = if k ∈ keysA m then keysA m else keysA m ++ [k] := by
  induction m with
  | nil => simp [keysA, insertA]
  | cons p rest ih =>
    obtain ⟨k₀, a₀⟩ := p
    by_cases h : k₀ = k
    · subst h
      simp [keysA, insertA]
    · have hne : ¬ k = k₀ := fun he => h he.symm
      have h1 : insertA ((k₀, a₀) :: rest) k a = (k₀, a₀) :: insertA rest k a := by
        simp [insertA, h]
      have h2 : keysA ((k₀, a₀) :: insertA rest k a) = k₀ :: keysA (insertA rest k a) := rfl
      have h3 : keysA ((k₀, a₀) :: rest) = k₀ :: keysA rest := rfl
      rw [h1, h2, ih, h3]
      by_cases hmem : k ∈ keysA rest <;> simp [hmem, hne]

theorem nodup_keysA_insertA {κ α : Type} [DecidableEq κ]
    (m : List (κ × α)) (k : κ) (a : α) (h : (keysA m).Nodup) :
    (keysA (insertA m k a)).Nodup := by
  rw [keysA_insertA]
  by_cases hmem : k ∈ keysA m
  · simpa [hmem] using h
  · simp only [if_neg hmem]
    simpa [List.nodup_append] using ⟨h, hmem⟩

theorem keysA_eraseA_sublist {κ α : Type} [DecidableEq κ]
    (m : List (κ × α)) (k : κ) : (keysA (eraseA m k)).Sublist (keysA m) := by
  induction m with
  | nil => simp [keysA, eraseA]
  | cons p rest ih =>
    obtain ⟨k₀, a₀⟩ := p
    by_cases h : k₀ = k
    · simp only [keysA, eraseA, if_pos h, List.map_cons]
      exact (List.sublist_cons_self _ _)
    · simp only [keysA, eraseA, if_neg h, List.map_cons]
      exact ih.cons₂ _

theorem nodup_keysA_eraseA {κ α : Type} [DecidableEq κ]
    (m : List (κ × α)) (k : κ) (h : (keysA m).Nodup) :
    (keysA (eraseA m k)).Nodup :=
  (keysA_eraseA_sublist m k).nodup h

theorem lookupA_eq_none_of_not_mem_keysA {κ α : Type} [DecidableEq κ]
    (m : List (κ × α)) (k : κ) (h : k ∉ keysA m) : lookupA m k = none := by
  induction m with
  | nil => rfl
  | cons p rest ih =>
    obtain ⟨k₀, a₀⟩ := p
    simp only [keysA, List.map_cons, List.mem_cons, not_or] at h
    have : ¬ k₀ = k := fun he => h.1 he.symm
    simpa [lookupA, this] using ih (by simpa [keysA] using h.2)

theorem lookupA_eraseA_self {κ α : Type} [DecidableEq κ]
    (m : List (κ × α)) (k : κ) (h : (keysA m).Nodup) :
    lookupA (eraseA m k) k = none := by
  induction m with
  | nil => rfl
  | cons p rest ih =>
    obtain ⟨k₀, a₀⟩ := p
    simp only [keysA, List.map_cons, List.nodup_cons] at h
    by_cases he : k₀ = k
    · subst he
      simpa [eraseA] using lookupA_eq_none_of_not_mem_keysA rest k₀ (by simpa [keysA] using h.1)
    · simpa [eraseA, he, lookupA, he] using ih h.2

/-! ## Diagnostic sink (`DiagnosticClient`)

State: `map[DocumentURI → map[Range → Diagnostic]]`; the inner map is
keyed by the diagnostic's `Range`, so diagnostics at identical ranges
deduplicate with the last write winning.  The LSP client is embedded as
the list of most recently published diagnostics per URI (newly pushed
diagnostics always replace previously pushed ones client-side). -/

/-- An LSP position (0-based line/character). -/
structure Position where
  line : Nat
  character : Nat
  deriving DecidableEq, Repr

/-- An LSP range. -/
structure Range where
  start : Position
  stop : Position
  deriving DecidableEq, Repr

/-- An LSP diagnostic (the fields the server populates). -/
structure Diagnostic where
  range : Range
  severity : Nat
  message : String
  source : String
  deriving DecidableEq, Repr

/-- The state of a `DiagnosticClient` together with the client's view:
`cache` is the per-URI range-keyed diagnostic map, `published` the last
`publishDiagnostics` payload per URI. -/
structure DiagnosticClient where
  cache : List (String × List (Range × Diagnostic))
  published : List (String × List Diagnostic)
  deriving DecidableEq, Repr

/-- Embedding of `DiagnosticClient.Reset`: drop all diagnostics for the handle's URI. -/
def DiagnosticClient.Reset (d : DiagnosticClient) (f : Handle) : DiagnosticClient :=
  { d with cache := eraseA d.cache f.uri }

/-- Embedding of `DiagnosticClient.AddDiagnostics`: merge the batch into the inner
range-keyed map (`dmap[d.Range] = d`), creating it if absent. -/
def DiagnosticClient.AddDiagnostics (d : DiagnosticClient) (f : Handle)
    (ds : List Diagnostic) : DiagnosticClient :=
  let dmap := (lookupA d.cache f.uri).getD []
  let dmap := ds.foldl (fun m dg => insertA m dg.range dg) dmap
  { d with cache := insertA d.cache f.uri dmap }

/-- Embedding of `DiagnosticClient.Notify`: publish the current set (possibly empty)
for the handle's URI to the client. -/
def DiagnosticClient.Notify (d : DiagnosticClient) (f : Handle) : DiagnosticClient :=
  let dmap := (lookupA d.cache f.uri).getD []
  { d with published := insertA d.published f.uri (valuesA dmap) }

/-- The last diagnostic of `ds` whose range is `r` (the spec-side reading
of "deduplicated by Range, last write winning"). -/
def lastWithRange (r : Range) : List Diagnostic → Option Diagnostic
  | [] => none
  | dg :: rest =>
    match lastWithRange r rest with
    | some e => some e
    | none => if dg.range = r then some dg else none

/-- The inner map built by one `AddDiagnostics` batch over a prior map. -/
def addBatch (m : List (Range × Diagnostic)) (ds : List Diagnostic) :
    List (Range × Diagnostic) :=
  ds.foldl (fun m dg => insertA m dg.range dg) m

theorem lookupA_addBatch (ds : List Diagnostic) (m : List (Range × Diagnostic)) (r : Range) :
    lookupA (addBatch m ds) r =
      match lastWithRange r ds with
      | some e => some e
      | none => lookupA m r := by
  induction ds generalizing m with
  | nil => simp [addBatch, lastWithRange]
  | cons dg rest ih =>
    simp only [addBatch, List.foldl_cons, lastWithRange]
    rw [show List.foldl (fun m dg => insertA m dg.range dg) (insertA m dg.range dg) rest =
      addBatch (insertA m dg.range dg) rest from rfl, ih]
    cases hlast : lastWithRange r rest with
    | some e => simp
    | none =>
      simp only [lookupA_insertA]
      by_cases hdr : dg.range = r <;> simp [hdr]

/-- Well-formedness of an inner map: each binding's key is its
diagnostic's range, and keys are distinct (a Go map). -/
def RangeMapWF (m : List (Range × Diagnostic)) : Prop :=
  (∀ p ∈ m, (Prod.snd p).range = p.1) ∧ (keysA m).Nodup

theorem mem_insertA {κ α : Type} [DecidableEq κ]
    (m : List (κ × α)) (k : κ) (a : α) (p : κ × α) (hp : p ∈ insertA m k a) :
    p ∈ m ∨ p = (k, a) := by
  induction m with
  | nil => exact Or.inr (by simpa [insertA] using hp)
  | cons q rest ih =>
    obtain ⟨k₀, a₀⟩ := q
    by_cases he : k₀ = k
    · subst he
      rcases List.mem_cons.mp (by simpa [insertA] using hp) with h1 | h2
      · exact Or.inr (by simp [h1])
      · exact Or.inl (List.mem_cons_of_mem _ h2)
    · rcases List.mem_cons.mp (by simpa [insertA, he] using hp) with h1 | h2
      · exact Or.inl (by simp [h1])
      · rcases ih h2 with h3 | h3
        · exact Or.inl (List.mem_cons_of_mem _ h3)
        · exact Or.inr h3

theorem rangeMapWF_insertA (m : List (Range × Diagnostic)) (dg : Diagnostic)
    (h : RangeMapWF m) : RangeMapWF (insertA m dg.range dg) := by
  obtain ⟨hk, hn⟩ := h
  refine ⟨fun p hp => ?_, nodup_keysA_insertA m dg.range dg hn⟩
  rcases mem_insertA m dg.range dg p hp with h1 | h1
  · exact hk p h1
  · simp [h1]

theorem rangeMapWF_addBatch (ds : List Diagnostic) (m : List (Range × Diagnostic))
    (h : RangeMapWF m) : RangeMapWF (addBatch m ds) := by
  induction ds generalizing m with
  | nil => exact h
  | cons dg rest ih => exact ih _ (rangeMapWF_insertA m dg h)

theorem mem_keysA_of_lookupA {κ α : Type} [DecidableEq κ]
    (m : List (κ × α)) (k : κ) (a : α) (h : lookupA m k = some a) : k ∈ keysA m := by
  induction m with
  | nil => simp [lookupA] at h
  | cons p rest ih =>
    obtain ⟨k₀, a₀⟩ := p
    by_cases he : k₀ = k
    · simp [keysA, he]
    · simp only [lookupA, if_neg he] at h
      simpa [keysA] using Or.inr (by simpa [keysA] using ih h)

theorem mem_valuesA_iff_lookupA (m : List (Range × Diagnostic))
    (h : RangeMapWF m) (dg : Diagnostic) :
    dg ∈ valuesA m ↔ lookupA m dg.range = some dg := by
  induction m with
  | nil => simp [valuesA, lookupA]
  | cons p rest ih =>
    obtain ⟨k₀, a₀⟩ := p
    obtain ⟨hk, hn⟩ := h
    have hk₀ : a₀.range = k₀ := hk (k₀, a₀) (List.mem_cons_self _ _)
    have hn' : k₀ ∉ keysA rest ∧ (keysA rest).Nodup := by
      simpa [keysA] using hn
    have hrest := ih ⟨fun q hq => hk q (List.mem_cons_of_mem _ hq), hn'.2⟩
    have hv : valuesA ((k₀, a₀) :: rest) = a₀ :: valuesA rest := rfl
    rw [hv]
    constructor
    · intro hmem
      rcases List.mem_cons.mp hmem with h1 | h2
      · simp [lookupA, h1, hk₀]
      · have hlk := hrest.mp h2
        have hne : ¬ k₀ = dg.range := by
          intro he
          exact hn'.1 (he ▸ mem_keysA_of_lookupA rest dg.range dg hlk)
        simp [lookupA, hne, hlk]
    · intro hlk
      by_cases hne : k₀ = dg.range
      · rw [show lookupA ((k₀, a₀) :: rest) dg.range =
            if k₀ = dg.range then some a₀ else lookupA rest dg.range from rfl,
          if_pos hne] at hlk
        exact List.mem_cons.mpr (Or.inl (Option.some_inj.mp hlk).symm)
      · rw [show lookupA ((k₀, a₀) :: rest) dg.range =
            if k₀ = dg.range then some a₀ else lookupA rest dg.range from rfl,
          if_neg hne] at hlk
        exact List.mem_cons_of_mem _ (hrest.mpr hlk)

/-! ## Theorem for C5 -/

/-- C5. For any URI (the handle's), any prior state whose cache is a
well-formed Go map, and any two diagnostic batches `S1`, `S2`, the
sequence `Reset; Add(S1); Notify; Reset; Add(S2); Notify` leaves the
client holding, for that URI, exactly the set `S2` deduplicated by range
with the last write winning — no remnant of `S1` (the result does not
depend on `S1` at all). -/
theorem diagnostic_reset_add_notify_replaces (d0 : DiagnosticClient) (f : Handle)
    (S1 S2 : List Diagnostic) (hnod : (keysA d0.cache).Nodup) :
    ∃ pub,
      lookupA ((((((d0.Reset f).AddDiagnostics f S1).Notify f).Reset f).AddDiagnostics
          f S2).Notify f).published f.uri = some pub ∧
        ∀ dg, dg ∈ pub ↔ lastWithRange dg.range S2 = some dg := by
  refine ⟨valuesA (addBatch [] S2), ?_, ?_⟩
  · have hnod1 :
        (keysA (insertA (eraseA d0.cache f.uri) f.uri
          (List.foldl (fun m dg => insertA m dg.range dg) [] S1))).Nodup :=
      nodup_keysA_insertA _ _ _ (nodup_keysA_eraseA _ _ hnod)
    simp only [DiagnosticClient.Reset, DiagnosticClient.AddDiagnostics,
      DiagnosticClient.Notify]
    rw [lookupA_eraseA_self _ _ hnod]
    simp only [Option.getD_none]
    rw [lookupA_eraseA_self _ _ hnod1]
    simp only [Option.getD_none, lookupA_insertA_self, Option.getD_some]
    rfl
  · intro dg
    have hwf : RangeMapWF (addBatch [] S2) :=
      rangeMapWF_addBatch S2 [] ⟨by simp, by simp [keysA]⟩
    rw [mem_valuesA_iff_lookupA _ hwf dg, lookupA_addBatch]
    cases hl : lastWithRange dg.range S2 <;> simp [lookupA]

/-- Witness for C5 at a concrete state: an empty client, a handle for
`file:///w/a.proto`, and singleton batches. -/
theorem diagnostic_reset_add_notify_replaces_witness :
    (keysA (DiagnosticClient.mk [] []).cache).Nodup ∧
      ∃ pub,
        lookupA (((((((DiagnosticClient.mk [] []).Reset ⟨"file:///w/a.proto", 1, some "x"⟩
            ).AddDiagnostics ⟨"file:///w/a.proto", 1, some "x"⟩
              [⟨⟨⟨0, 0⟩, ⟨0, 4⟩⟩, 1, "old", "buf-lsp"⟩]).Notify
            ⟨"file:///w/a.proto", 1, some "x"⟩).Reset
            ⟨"file:///w/a.proto", 1, some "x"⟩).AddDiagnostics
            ⟨"file:///w/a.proto", 1, some "x"⟩
              [⟨⟨⟨1, 0⟩, ⟨1, 4⟩⟩, 1, "new", "buf-lsp"⟩]).Notify
            ⟨"file:///w/a.proto", 1, some "x"⟩).published "file:///w/a.proto" = some pub ∧
          ∀ dg, dg ∈ pub ↔
            lastWithRange dg.range [⟨⟨⟨1, 0⟩, ⟨1, 4⟩⟩, 1, "new", "buf-lsp"⟩] = some dg :=
  ⟨by simp [keysA],
    diagnostic_reset_add_notify_replaces (DiagnosticClient.mk [] [])
      ⟨"file:///w/a.proto", 1, some "x"⟩
      [⟨⟨⟨0, 0⟩, ⟨0, 4⟩⟩, 1, "old", "buf-lsp"⟩]
      [⟨⟨⟨1, 0⟩, ⟨1, 4⟩⟩, 1, "new", "buf-lsp"⟩] (by simp [keysA])⟩

/-! ## Semantic-token delta encoding (`semantic_token.go`)

`uint32` values are embedded as `Nat`; the one place the Go code
subtracts (`item.Line - last.Line`, `item.Start - last.Start`) is
embedded with explicit wrap-around `% 2^32`. -/

/-- Go `uint32` subtraction `a - b` with wrap-around. -/
def sub32 (a b : Nat) : Nat := (a + (2 ^ 32 - b % 2 ^ 32)) % 2 ^ 32

theorem sub32_eq_sub (a b : Nat) (hba : b ≤ a) (ha : a < 2 ^ 32) :
    sub32 a b = a - b := by
  have hb : b < 2 ^ 32 := lt_of_le_of_lt hba ha
  have h1 : b % 2 ^ 32 = b := Nat.mod_eq_of_lt hb
  have h2 : a + (2 ^ 32 - b) = 2 ^ 32 + (a - b) := by omega
  rw [sub32, h1, h2, Nat.add_mod_left, Nat.mod_eq_of_lt (by omega)]

/-- A `SemanticToken` (`semantic_token.go`): absolute 0-based line and
start, length, raw text, type index, and modifier list. -/
structure SemanticToken where
  line : Nat
  start : Nat
  len : Nat
  raw : String
  typ : Nat
  modifiers : List Nat
  deriving DecidableEq, Repr

/-- Embedding of `SemanticTokenModifiers.Value()`: the bitwise OR of the modifiers
(`0` for the empty list). -/
def modifiersValue (ms : List Nat) : Nat :=
  ms.foldl (fun v m => v ||| m) 0

/-- The encoder's loop for every token after the first: five integers per
token — the line delta; the start delta when the line delta is zero,
otherwise the absolute start; the length; the type; the modifier bitset. -/
def encodeRest (last : SemanticToken) : List SemanticToken → List Nat
  | [] => []
  | t :: rest =>
    let dline := sub32 t.line last.line
    let dstart := if dline = 0 then sub32 t.start last.start else t.start
    dline :: dstart :: t.len :: t.typ :: modifiersValue t.modifiers :: encodeRest t rest

/-- Embedding of `EncodeSemanticTokens`: the first token is emitted with absolute line
and start; every later token through `encodeRest`. -/
def EncodeSemanticTokens : List SemanticToken → List Nat
  | [] => []
  | t :: rest =>
    t.line :: t.start :: t.len :: t.typ :: modifiersValue t.modifiers :: encodeRest t rest

/-- The LSP client's decoding of the five-integer groups: each group
yields an absolute token, accumulating the previous absolute line and
start. -/
def decodeSemanticTokens : List Nat → Nat → Nat → List (Nat × Nat × Nat × Nat × Nat)
  | dl :: ds :: ln :: ty :: md :: rest, prevLine, prevStart =>
    let line := prevLine + dl
    let start := if dl = 0 then prevStart + ds else ds
    (line, start, ln, ty, md) :: decodeSemanticTokens rest line start
  | _, _, _ => []

/-- The `(line, start, length, type, modifier-bitset)` view of a token. -/
def tokenTuple (t : SemanticToken) : Nat × Nat × Nat × Nat × Nat :=
  (t.line, t.start, t.len, t.typ, modifiersValue t.modifiers)

/-- Sorted-input order: `(line, start)`-lexicographic order on tokens (the encoder's input is
sorted ascending by it). -/
def tokLe (a b : SemanticToken) : Prop :=
  a.line < b.line ∨ (a.line = b.line ∧ a.start ≤ b.start)

instance : DecidableRel tokLe := fun a b =>
  inferInstanceAs (Decidable (a.line < b.line ∨ (a.line = b.line ∧ a.start ≤ b.start)))

theorem decode_encodeRest (rest : List SemanticToken) (last : SemanticToken)
    (hchain : List.Chain' tokLe (last :: rest))
    (hb : ∀ t ∈ rest, t.line < 2 ^ 32 ∧ t.start < 2 ^ 32) :
    decodeSemanticTokens (encodeRest last rest) last.line last.start =
      rest.map tokenTuple := by
  induction rest generalizing last with
  | nil => rfl
  | cons t rest' ih =>
    have hlt : tokLe last t := (List.chain'_cons.mp hchain).1
    have hchain' : List.Chain' tokLe (t :: rest') := (List.chain'_cons.mp hchain).2
    have hbt := hb t (List.mem_cons_self _ _)
    have hline_le : last.line ≤ t.line := by
      rcases hlt with h | h
      · exact le_of_lt h
      · exact le_of_eq h.1
    have hdl : sub32 t.line last.line = t.line - last.line :=
      sub32_eq_sub _ _ hline_le hbt.1
    by_cases hz : t.line - last.line = 0
    · have heq : t.line = last.line := by omega
      have hstart_le : last.start ≤ t.start := by
        rcases hlt with h | h
        · omega
        · exact h.2
      have hds : sub32 t.start last.start = t.start - last.start :=
        sub32_eq_sub _ _ hstart_le hbt.2
      simp only [encodeRest, decodeSemanticTokens, hdl, hds, if_pos hz]
      rw [show last.line + (t.line - last.line) = t.line by omega,
        show last.start + (t.start - last.start) = t.start by omega]
      rw [ih t hchain' (fun u hu => hb u (List.mem_cons_of_mem _ hu))]
      rfl
    · simp only [encodeRest, decodeSemanticTokens, hdl, if_neg hz]
      rw [show last.line + (t.line - last.line) = t.line by omega]
      rw [ih t hchain' (fun u hu => hb u (List.mem_cons_of_mem _ hu))]
      rfl

/-! ## Theorem for C6 -/

/-- C6. For every token list sorted ascending by `(line, start)`
(with in-range `uint32` coordinates), decoding the five-integer delta
encoding produced by `EncodeSemanticTokens` — first token absolute,
later tokens carrying a line delta and a start delta exactly when the
line delta is zero — recovers the original
`(line, start, length, type, modifier-bitset)` tuples in order. -/
theorem decode_encodeSemanticTokens (toks : List SemanticToken)
    (hsort : List.Chain' tokLe toks)
    (hb : ∀ t ∈ toks, t.line < 2 ^ 32 ∧ t.start < 2 ^ 32) :
    decodeSemanticTokens (EncodeSemanticTokens toks) 0 0 = toks.map tokenTuple := by
  cases toks with
  | nil => rfl
  | cons t rest =>
    simp only [EncodeSemanticTokens, decodeSemanticTokens]
    have h1 : (0 : Nat) + t.line = t.line := Nat.zero_add _
    have h2 : (if t.line = 0 then 0 + t.start else t.start) = t.start := by
      by_cases hz : t.line = 0 <;> simp [hz]
    rw [h1, h2, decode_encodeRest rest t (by simpa using hsort)
      (fun u hu => hb u (List.mem_cons_of_mem _ hu))]
    rfl

/-- Witness for C6: the two leading tokens of the spec's
`message Foo { … }` example encode to `[0,0,7,10,0, 0,8,3,3,1]` and
decode back to themselves. -/
theorem decode_encodeSemanticTokens_witness :
    decodeSemanticTokens (EncodeSemanticTokens
        [⟨0, 0, 7, "message", 10, []⟩, ⟨0, 8, 3, "Foo", 3, [1]⟩]) 0 0 =
      [(0, 0, 7, 10, 0), (0, 8, 3, 3, 1)] := by
  rw [decode_encodeSemanticTokens
    [⟨0, 0, 7, "message", 10, []⟩, ⟨0, 8, 3, "Foo", 3, [1]⟩]
    (by simp [List.chain'_cons, List.chain'_singleton, tokLe]) (by decide)]
  rfl

/-! ## Position queries and nearest-node search
(`parser/position.go`, `parser/file.go`)

An AST node is embedded as its source span (the four `NodeInfo`
coordinates the query code reads), paired with its index in the
visit order of `ast.Walk`; the index stands for node identity. -/

/-- A node's source span: 1-based start/end `(line, col)` as Go `int`s. -/
structure Span where
  startLine : Int
  startCol : Int
  endLine : Int
  endCol : Int
  deriving DecidableEq, Repr

/-- Embedding of `NewOneBasePosition` on the line: add one to the 0-based LSP line (a `uint32`
increment, hence the wrap-around), viewed as a Go `int`. -/
def oneBaseLine (p : Position) : Int := (((p.line + 1) % 2 ^ 32 : Nat) : Int)

/-- Embedding of `NewOneBasePosition` on the character coordinate. -/
def oneBaseChar (p : Position) : Int := (((p.character + 1) % 2 ^ 32 : Nat) : Int)

/-- Embedding of `PositionWithinNode`: single-line nodes on the position's line also
check the column, inclusively on both ends; all other nodes only check
the line interval. -/
def PositionWithinNode (ni : Span) (zpos : Position) : Bool :=
  let pl := oneBaseLine zpos
  let pc := oneBaseChar zpos
  if ni.startLine = ni.endLine ∧ ni.startLine = pl then
    decide (ni.startCol ≤ pc ∧ pc ≤ ni.endCol)
  else
    decide (ni.startLine ≤ pl ∧ pl ≤ ni.endLine)

/-- Embedding of `PositionNodeLen`: `(-1, -1)` outside the node; a single-line node
has line-length 0 and column-length `(pc - startCol) + (endCol - pc)`;
a multi-line node has line-length `(pl - startLine) + (endLine - pl)`
and column-length `-1`. -/
def PositionNodeLen (ni : Span) (zpos : Position) : Int × Int :=
  if ¬ PositionWithinNode ni zpos then (-1, -1)
  else
    let pl := oneBaseLine zpos
    let pc := oneBaseChar zpos
    if ni.startLine = ni.endLine then
      (0, (pc - ni.startCol) + (ni.endCol - pc))
    else
      ((pl - ni.startLine) + (ni.endLine - pl), -1)

/-- Embedding of `File.NodesAt`: all nodes containing the position, in visit order. -/
def NodesAt (spans : List Span) (pos : Position) : List (Nat × Span) :=
  spans.enum.filter (fun q => PositionWithinNode q.2 pos)

/-- The loop body of `File.Nearest`: keep the candidate with the
smaller line-length, breaking line ties by strictly smaller
column-length, and keeping the incumbent otherwise. -/
def nearestLoop (pos : Position) :
    List (Nat × Span) → Option (Nat × Span) → Int → Int → Option (Nat × Span)
  | [], best, _, _ => best
  | q :: rest, best, bl, bc =>
    if ¬ PositionWithinNode q.2 pos then nearestLoop pos rest best bl bc
    else
      let ll := (PositionNodeLen q.2 pos).1
      let cl := (PositionNodeLen q.2 pos).2
      match best with
      | none => nearestLoop pos rest (some q) ll cl
      | some _ =>
        if ll > bl then nearestLoop pos rest best bl bc
        else if ll < bl then nearestLoop pos rest (some q) ll cl
        else if cl < bc then nearestLoop pos rest (some q) ll cl
        else nearestLoop pos rest best bl bc

/-- Embedding of `File.Nearest` on a parsed file's visit-ordered spans. -/
def Nearest (spans : List Span) (pos : Position) : Option (Nat × Span) :=
  let ns := NodesAt spans pos
  if ns = [] then none
  else nearestLoop pos ns none (-1) (-1)

/-- Strict `(line, col)`-lexicographic order on length pairs. -/
def lexLt (a b : Int × Int) : Prop := a.1 < b.1 ∨ (a.1 = b.1 ∧ a.2 < b.2)

/-- Non-strict `(line, col)`-lexicographic order on length pairs. -/
def lexLe (a b : Int × Int) : Prop := a.1 < b.1 ∨ (a.1 = b.1 ∧ a.2 ≤ b.2)

instance : DecidableRel lexLt := fun a b =>
  inferInstanceAs (Decidable (a.1 < b.1 ∨ (a.1 = b.1 ∧ a.2 < b.2)))

/-- One comparison step of the nearest fold. -/
def pickNearest (pos : Position) (b q : Nat × Span) : Nat × Span :=
  if lexLt (PositionNodeLen q.2 pos) (PositionNodeLen b.2 pos) then q else b

theorem lexLe_refl (a : Int × Int) : lexLe a a := by
  simp [lexLe]

theorem lexLe_trans {a b c : Int × Int} (h1 : lexLe a b) (h2 : lexLe b c) : lexLe a c := by
  simp only [lexLe] at *
  omega

theorem lexLe_of_lexLt {a b : Int × Int} (h : lexLt a b) : lexLe a b := by
  simp only [lexLe, lexLt] at *
  omega

theorem lexLe_of_not_lexLt {a b : Int × Int} (h : ¬ lexLt a b) : lexLe b a := by
  simp only [lexLe, lexLt] at *
  omega

theorem lexLt_of_lexLt_of_lexLe {a b c : Int × Int} (h1 : lexLt a b) (h2 : lexLe b c) :
    lexLt a c := by
  simp only [lexLe, lexLt] at *
  omega

theorem lexLt_irrefl (a : Int × Int) : ¬ lexLt a a := by
  simp [lexLt]

theorem lexLe_antisymm {a b : Int × Int} (h1 : lexLe a b) (h2 : lexLe b a) : a = b := by
  obtain ⟨a1, a2⟩ := a
  obtain ⟨b1, b2⟩ := b
  simp only [lexLe] at *
  simp only [Prod.mk.injEq]
  omega

theorem nearestLoop_eq_foldl (pos : Position) (l : List (Nat × Span)) :
    ∀ b : Nat × Span, (∀ q ∈ l, PositionWithinNode q.2 pos = true) →
      nearestLoop pos l (some b) (PositionNodeLen b.2 pos).1 (PositionNodeLen b.2 pos).2 =
        some (l.foldl (pickNearest pos) b) := by
  induction l with
  | nil => intro b _; rfl
  | cons q rest ih =>
    intro b hw
    have hq : PositionWithinNode q.2 pos = true := hw q (List.mem_cons_self _ _)
    have hw' : ∀ p ∈ rest, PositionWithinNode p.2 pos = true :=
      fun p hp => hw p (List.mem_cons_of_mem _ hp)
    simp only [nearestLoop, hq, not_true_eq_false, if_false, List.foldl_cons]
    by_cases hgt : (PositionNodeLen q.2 pos).1 > (PositionNodeLen b.2 pos).1
    · have hnl : ¬ lexLt (PositionNodeLen q.2 pos) (PositionNodeLen b.2 pos) := by
        simp only [lexLt]
        omega
      simp only [if_pos hgt, pickNearest, if_neg hnl]
      exact ih b hw'
    · by_cases hlt : (PositionNodeLen q.2 pos).1 < (PositionNodeLen b.2 pos).1
      · have hl : lexLt (PositionNodeLen q.2 pos) (PositionNodeLen b.2 pos) := Or.inl hlt
        simp only [if_neg hgt, if_pos hlt, pickNearest, if_pos hl]
        exact ih q hw'
      · by_cases hcl : (PositionNodeLen q.2 pos).2 < (PositionNodeLen b.2 pos).2
        · have hl : lexLt (PositionNodeLen q.2 pos) (PositionNodeLen b.2 pos) :=
            Or.inr ⟨by omega, hcl⟩
          simp only [if_neg hgt, if_neg hlt, if_pos hcl, pickNearest, if_pos hl]
          exact ih q hw'
        · have hnl : ¬ lexLt (PositionNodeLen q.2 pos) (PositionNodeLen b.2 pos) := by
            simp only [lexLt]
            omega
          simp only [if_neg hgt, if_neg hlt, if_neg hcl, pickNearest, if_neg hnl]
          exact ih b hw'

theorem foldl_pickNearest_spec (pos : Position) (l : List (Nat × Span)) :
    ∀ b : Nat × Span, (b :: l).Pairwise (fun x y => x.1 < y.1) →
      (l.foldl (pickNearest pos) b = b ∨ l.foldl (pickNearest pos) b ∈ l) ∧
      lexLe (PositionNodeLen (l.foldl (pickNearest pos) b).2 pos) (PositionNodeLen b.2 pos) ∧
      (∀ q ∈ l, lexLe (PositionNodeLen (l.foldl (pickNearest pos) b).2 pos)
        (PositionNodeLen q.2 pos)) ∧
      (∀ q ∈ b :: l, PositionNodeLen q.2 pos =
          PositionNodeLen (l.foldl (pickNearest pos) b).2 pos →
        (l.foldl (pickNearest pos) b).1 ≤ q.1) := by
  induction l with
  | nil =>
    intro b _
    refine ⟨Or.inl rfl, lexLe_refl _, by simp, ?_⟩
    intro q hq _
    rcases List.mem_singleton.mp hq with rfl
    exact le_refl _
  | cons q rest ih =>
    intro b hpair
    have hbq : b.1 < q.1 := (List.pairwise_cons.mp hpair).1 q (List.mem_cons_self _ _)
    have hbtail : ∀ t ∈ rest, b.1 < t.1 :=
      fun t ht => (List.pairwise_cons.mp hpair).1 t (List.mem_cons_of_mem _ ht)
    have hqtail : ∀ t ∈ rest, q.1 < t.1 :=
      fun t ht => (List.pairwise_cons.mp (List.pairwise_cons.mp hpair).2).1 t ht
    have htailpair : rest.Pairwise (fun x y => x.1 < y.1) :=
      (List.pairwise_cons.mp (List.pairwise_cons.mp hpair).2).2
    simp only [List.foldl_cons]
    by_cases hl : lexLt (PositionNodeLen q.2 pos) (PositionNodeLen b.2 pos)
    · -- the incumbent is replaced by `q`
      have hpk : pickNearest pos b q = q := by simp [pickNearest, hl]
      rw [hpk]
      obtain ⟨ihmem, ihle, ihall, ihfirst⟩ :=
        ih q (List.pairwise_cons.mpr ⟨hqtail, htailpair⟩)
      refine ⟨?_, ?_, ?_, ?_⟩
      · rcases ihmem with h | h
        · exact Or.inr (by rw [h]; exact List.mem_cons_self _ _)
        · exact Or.inr (List.mem_cons_of_mem _ h)
      · exact lexLe_trans ihle (lexLe_of_lexLt hl)
      · intro p hp
        rcases List.mem_cons.mp hp with rfl | hp'
        · exact ihle
        · exact ihall p hp'
      · intro p hp hkey
        rcases List.mem_cons.mp hp with rfl | hp'
        · exfalso
          have hqr : lexLe (PositionNodeLen p.2 pos) (PositionNodeLen q.2 pos) := by
            rw [hkey]
            exact ihle
          exact lexLt_irrefl _ (lexLt_of_lexLt_of_lexLe hl hqr)
        · exact ihfirst p hp' hkey
    · -- the incumbent `b` is kept
      have hpk : pickNearest pos b q = b := by simp [pickNearest, hl]
      rw [hpk]
      obtain ⟨ihmem, ihle, ihall, ihfirst⟩ :=
        ih b (List.pairwise_cons.mpr ⟨hbtail, htailpair⟩)
      have hble : lexLe (PositionNodeLen b.2 pos) (PositionNodeLen q.2 pos) :=
        lexLe_of_not_lexLt hl
      refine ⟨?_, ?_, ?_, ?_⟩
      · rcases ihmem with h | h
        · exact Or.inl h
        · exact Or.inr (List.mem_cons_of_mem _ h)
      · exact ihle
      · intro p hp
        rcases List.mem_cons.mp hp with rfl | hp'
        · exact lexLe_trans ihle hble
        · exact ihall p hp'
      · intro p hp hkey
        rcases List.mem_cons.mp hp with rfl | hp'
        · exact ihfirst p (List.mem_cons_self _ _) hkey
        · rcases List.mem_cons.mp hp' with rfl | hp''
          · have hkb : PositionNodeLen b.2 pos =
                PositionNodeLen (List.foldl (pickNearest pos) b rest).2 pos :=
              lexLe_antisymm (by rw [← hkey]; exact hble) ihle
            have h1 := ihfirst b (List.mem_cons_self _ _) hkb
            omega
          · exact ihfirst p (List.mem_cons_of_mem _ hp'') hkey

/-! ## Theorem for C8 -/

/-- C8. For every parsed file (its nodes given as visit-ordered spans)
and every position contained in at least one node, `Nearest` returns a
containing node whose `(line-length, column-length)` pair (as computed by
`PositionNodeLen`) is lexicographically least among all containing nodes
— smallest line-span first, smallest column-span on ties — and whose
visit index is least among the nodes achieving that pair. -/
theorem nearest_returns_lex_min_first (spans : List Span) (pos : Position)
    (hne : NodesAt spans pos ≠ []) :
    ∃ i s, Nearest spans pos = some (i, s) ∧
      (i, s) ∈ NodesAt spans pos ∧
      (∀ q ∈ NodesAt spans pos,
        lexLe (PositionNodeLen s pos) (PositionNodeLen q.2 pos)) ∧
      (∀ q ∈ NodesAt spans pos,
        PositionNodeLen q.2 pos = PositionNodeLen s pos → i ≤ q.1) := by
  have hwithin : ∀ q ∈ NodesAt spans pos, PositionWithinNode q.2 pos = true := by
    intro q hq
    exact (List.mem_filter.mp hq).2
  have hpair : (NodesAt spans pos).Pairwise (fun x y => x.1 < y.1) := by
    have henum : spans.enum.Pairwise (fun x y => (x : Nat × Span).1 < y.1) := by
      have h1 : (spans.enum.map Prod.fst).Pairwise (· < ·) := by
        rw [List.enum_map_fst]
        exact List.pairwise_lt_range _
      exact (List.pairwise_map.mp h1)
    exact henum.sublist (List.filter_sublist _)
  cases hns : NodesAt spans pos with
  | nil => exact absurd hns hne
  | cons b tail =>
    rw [hns] at hwithin hpair
    have hb : PositionWithinNode b.2 pos = true := hwithin b (List.mem_cons_self _ _)
    have hw' : ∀ q ∈ tail, PositionWithinNode q.2 pos = true :=
      fun q hq => hwithin q (List.mem_cons_of_mem _ hq)
    obtain ⟨hmem, hle, hall, hfirst⟩ := foldl_pickNearest_spec pos tail b hpair
    refine ⟨(tail.foldl (pickNearest pos) b).1, (tail.foldl (pickNearest pos) b).2,
      ?_, ?_, ?_, ?_⟩
    · unfold Nearest
      rw [hns]
      rw [if_neg (by simp)]
      simp only [nearestLoop, hb, not_true_eq_false, if_false]
      rw [nearestLoop_eq_foldl pos tail b hw']
    · rw [Prod.mk.eta]
      rcases hmem with h | h
      · rw [h]
        exact List.mem_cons_self _ _
      · exact List.mem_cons_of_mem _ h
    · intro q hq
      rcases List.mem_cons.mp hq with rfl | hq'
      · exact hle
      · exact hall q hq'
    · intro q hq hkey
      exact hfirst q hq hkey

/-- Witness for C8, the spec's tie-break scenario: an outer message
spanning lines 1–11 and an inner single-line field on line 6; the cursor
at LSP position (5, 4) selects the field node (index 1). -/
theorem nearest_returns_lex_min_first_witness :
    ∃ i s, Nearest [⟨1, 1, 11, 2⟩, ⟨6, 3, 6, 20⟩] ⟨5, 4⟩ = some (i, s) ∧
      (i, s) ∈ NodesAt [⟨1, 1, 11, 2⟩, ⟨6, 3, 6, 20⟩] ⟨5, 4⟩ ∧
      (∀ q ∈ NodesAt [⟨1, 1, 11, 2⟩, ⟨6, 3, 6, 20⟩] ⟨5, 4⟩,
        lexLe (PositionNodeLen s ⟨5, 4⟩) (PositionNodeLen q.2 ⟨5, 4⟩)) ∧
      (∀ q ∈ NodesAt [⟨1, 1, 11, 2⟩, ⟨6, 3, 6, 20⟩] ⟨5, 4⟩,
        PositionNodeLen q.2 ⟨5, 4⟩ = PositionNodeLen s ⟨5, 4⟩ → i ≤ q.1) :=
  nearest_returns_lex_min_first [⟨1, 1, 11, 2⟩, ⟨6, 3, 6, 20⟩] ⟨5, 4⟩ (by decide)

/-! ## The versioned parse cache (`parser/file.go`, `parser` package)

The external protocompile parser is a parameter `pe` mapping a file's
content to the parts of the AST the server walks out of it — the package
name, if a package node exists, and the import names in source order —
together with the diagnostics it reports.  (`ErrInvalidSource` errors are
tolerated by the code and still commit a best-effort AST, which is the
behaviour `pe` embeds; hard parser failures abort without committing and
are not exercised by the claims.)  `Compile` only touches the symbol
table and the linker file, which no claim reads, and its errors are
logged and swallowed by `Parser.Parse`. -/

/-- Model of `strings.Contains`. -/
def goContains (s sub : String) : Bool := decide (sub.data <:+: s.data)

/-- The pieces of a protocompile AST that the server extracts after a
parse (`DoVisitPackageNode` / `DoVisitImportNode`). -/
structure Ast where
  pkg : Option String
  imports : List String
  deriving DecidableEq, Repr

/-- Constant `FileInitVersion`, always less than any handle version. -/
def FileInitVersion : Int := -2

/-- Constant `descriptorPath`. -/
def descriptorPath : String := "google/protobuf/descriptor.proto"

/-- A `parser.File` (ParsedFile): the cached parse state for one URI.
`silent` records the no-op reporter swap for descriptor files;
`reporterHandle` is the handle captured by the file's `fileReporter` at
creation time (it is never replaced on reset). -/
structure ParsedFile where
  uri : String
  handle : Handle
  silent : Bool
  reporterHandle : Handle
  content : Option String
  version : Int
  fn : Option Ast
  pkg : Option String
  imports : List String
  deriving DecidableEq, Repr

/-- Embedding of `newFile`. -/
def newFile (uri : String) (h : Handle) : ParsedFile :=
  { uri := uri
    handle := h
    silent := goContains (URI2Filename uri) descriptorPath
    reporterHandle := h
    content := none
    version := FileInitVersion
    fn := none
    pkg := none
    imports := [] }

/-- Embedding of `File.reset` (`ResetWithHandle` passes `some h`,
`Reset` passes `none`): replace the handle when one is given, and clear
content, version (back to `FileInitVersion`), AST, package and imports. -/
def ParsedFile.reset (f : ParsedFile) (h : Option Handle) : ParsedFile :=
  { f with
    handle := h.getD f.handle
    content := none
    version := FileInitVersion
    fn := none
    pkg := none
    imports := [] }

/-- Embedding of `File.needReParse`: the AST is nil, or the cached
version is strictly below the handle's. -/
def ParsedFile.needReParse (f : ParsedFile) : Bool :=
  f.fn.isNone || decide (f.version < f.handle.version)

/-- Embedding of `File.Parse`: skip unless `needReParse`; read the
handle's content (surfacing a read error); run the external parser; then
commit content, the handle's version, the AST, the package name (the walk
only overwrites `pkg` when a package node is visited) and the import
nodes (appended to the existing `imports` slice, which a prior reset left
empty).  Returns the committed file and the diagnostics reported,
silenced for descriptor files. -/
def ParsedFile.parse (pe : String → Ast × List Diagnostic) (f : ParsedFile) :
    Except Unit (ParsedFile × List Diagnostic) :=
  if ¬ f.needReParse then .ok (f, [])
  else
    match f.handle.content with
    | none => .error ()
    | some c =>
      let fn := (pe c).1
      .ok ({ f with
        content := some c
        version := f.handle.version
        fn := some fn
        pkg := match fn.pkg with | some p => some p | none => f.pkg
        imports := f.imports ++ fn.imports },
        if f.silent then [] else (pe c).2)

/-- Embedding of `File.PackageName`: the package identifier, or `""`
when no package node was seen. -/
def ParsedFile.packageName (f : ParsedFile) : String := f.pkg.getD ""

/-- Embedding of `File.Imports`: the import names, each normalized by
`file.NormalURIStr`. -/
def ParsedFile.importsNormalized (f : ParsedFile) : List String :=
  f.imports.map normURI

/-- The mutable maps of a `parser.Parser`: files by relative URI, and
packages by name (a package is its member files' URI set, in insertion
order). -/
structure ParserState where
  files : List (String × ParsedFile)
  pkgs : List (String × List String)
  deriving DecidableEq, Repr

/-- Embedding of `Parser.pkgremove` with `Package.RemoveFile`: look the
file's (current) package name up and delete the file's URI from it. -/
def pkgRemove (pkgs : List (String × List String)) (f : ParsedFile) :
    List (String × List String) :=
  match lookupA pkgs f.packageName with
  | some us => insertA pkgs f.packageName (us.filter (fun u => u ≠ f.uri))
  | none => pkgs

/-- Embedding of `Parser.pkgadd` with `Package.AddFile`: create the
package if needed and add the file's URI unless already present. -/
def pkgAdd (pkgs : List (String × List String)) (f : ParsedFile) :
    List (String × List String) :=
  let us := (lookupA pkgs f.packageName).getD []
  insertA pkgs f.packageName (if f.uri ∈ us then us else us ++ [f.uri])

/-- Embedding of `Parser.Parse(uri, handle)`: on a cache hit the file is
reset with the new handle (`ResetWithHandle`) and removed from its —
post-reset — package; on a miss a fresh file is created and stored; then
`File.Parse` runs (its reported diagnostics flow to the diagnostic
collector under the reporter's captured handle), a parse error is
surfaced with the file left in the cache in its pre-parse state, and on
success the parsed file is stored and re-registered under its package
(`Compile` runs in between, but only touches the unmodelled symbol
table, and its failures are logged and swallowed). -/
def parserParse (pe : String → Ast × List Diagnostic) (st : ParserState)
    (dc : DiagnosticClient) (uri : String) (h : Handle) :
    ParserState × DiagnosticClient × Except Unit ParsedFile :=
  match lookupA st.files uri with
  | some f0 =>
    let f1 := f0.reset (some h)
    let pkgs1 := pkgRemove st.pkgs f1
    match f1.parse pe with
    | .error e => (⟨insertA st.files uri f1, pkgs1⟩, dc, .error e)
    | .ok (f2, ds) =>
      (⟨insertA st.files uri f2, pkgAdd pkgs1 f2⟩,
        dc.AddDiagnostics f2.reporterHandle ds, .ok f2)
  | none =>
    let f1 := newFile uri h
    match f1.parse pe with
    | .error e => (⟨insertA st.files uri f1, st.pkgs⟩, dc, .error e)
    | .ok (f2, ds) =>
      (⟨insertA st.files uri f2, pkgAdd st.pkgs f2⟩,
        dc.AddDiagnostics f2.reporterHandle ds, .ok f2)

/-! ## The file manager's recursive import walk (`file_manager.go`)

The composed source below the overlays — the disk source and the module
sources, both read-through caches over immutable providers — is a
parameter `lower` mapping a URI to the stat path (`ObjectInfo.Path()`)
and the read handle, or `none` for a miss.  The manager state bundles the
parser cache and the diagnostic sink with its client view.  Because the
walk recurses through imports, it is given fuel: a `none` result means
the fuel ran out before the walk completed. -/

/-- Model of the result of `filepath.Rel(base, targ)` for a target lying
under the base (the only shape `Overlay.Path` is called on in the
claims): strip the `base ++ "/"` prefix. -/
def filepathRelPath (base targ : String) : String :=
  if goHasPrefix targ (base ++ "/") then targ.drop (base ++ "/").length else targ

/-- Stat-and-read of one folder's overlay layer: the overlay, if one
exists for the normalized URI, served as ObjectInfo (its `Path()` is the
root-relative path) and as handle. -/
def overlayResolve (fs : OverlayFS) (uri : String) : Option (String × Handle) :=
  match lookupA fs.overlays (fs.checkURI uri) with
  | some o => some (filepathRelPath o.root (uriFilename o.uri), o.toHandle)
  | none => none

/-- Stat-and-read through the flattened multi-source: the folders'
overlay layers in order, then the lower (disk/module) sources. -/
def sourceResolve (folders : List OverlayFS) (lower : String → Option (String × Handle)) :
    String → Option (String × Handle)
  | uri =>
    match folders with
    | [] => lower uri
    | fs :: rest =>
      match overlayResolve fs uri with
      | some r => some r
      | none => sourceResolve rest lower uri

/-- The manager state: the parser cache, and the diagnostic sink with
its client view. -/
structure LspState where
  parser : ParserState
  dc : DiagnosticClient
  deriving DecidableEq, Repr

/-- The import loop of `internalparse`: walk the declared imports in
order, recursing through `next` (the fueled `ReadFile`), and abort on the
first error.  `none` propagates fuel exhaustion; the second component is
`some e` on error. -/
def readImportsWith (next : LspState → String → Option (LspState × Except Unit ParsedFile)) :
    LspState → List String → Option (LspState × Option Unit)
  | st, [] => some (st, none)
  | st, i :: rest =>
    match next st i with
    | none => none
    | some (st', .error e) => some (st', some e)
    | some (st', .ok _) => readImportsWith next st' rest

/-- Embedding of `fileManager.internalparse`: reset the diagnostics for
the handle's URI, run `Parser.Parse` on the normalized stat path, notify
the client (publish failures are logged and swallowed), then walk the
parsed file's imports depth-first through `next`. -/
def internalparseF (pe : String → Ast × List Diagnostic)
    (next : LspState → String → Option (LspState × Except Unit ParsedFile))
    (st : LspState) (path : String) (h : Handle) :
    Option (LspState × Except Unit ParsedFile) :=
  match parserParse pe st.parser (st.dc.Reset h) (normURI path) h with
  | (pst, dc2, .error e) => some (⟨pst, dc2⟩, .error e)
  | (pst, dc2, .ok f) =>
    match readImportsWith next ⟨pst, dc2.Notify h⟩ f.importsNormalized with
    | none => none
    | some (st2, some e) => some (st2, .error e)
    | some (st2, none) => some (st2, .ok f)

/-- One step of `fileManager.ReadFile`: stat and read the URI through
the composed source (a miss is an error), then `internalparse`. -/
def readFileStep (pe : String → Ast × List Diagnostic) (folders : List OverlayFS)
    (lower : String → Option (String × Handle))
    (next : LspState → String → Option (LspState × Except Unit ParsedFile))
    (st : LspState) (uri : String) : Option (LspState × Except Unit ParsedFile) :=
  match sourceResolve folders lower uri with
  | none => some (st, .error ())
  | some (path, h) => internalparseF pe next st path h

/-- The fueled `fileManager.ReadFile`: each recursion level into imports
consumes one unit of fuel; `none` means the walk did not complete within
the fuel. -/
def readFileFuel (pe : String → Ast × List Diagnostic) (folders : List OverlayFS)
    (lower : String → Option (String × Handle)) :
    Nat → LspState → String → Option (LspState × Except Unit ParsedFile)
  | 0, _, _ => none
  | n + 1, st, uri =>
    readFileStep pe folders lower (readFileFuel pe folders lower n) st uri

/-- The whole server state: the per-folder overlay filesystems and the
manager state. -/
structure ServerState where
  folders : List OverlayFS
  lsp : LspState
  deriving DecidableEq, Repr

/-- Embedding of `filesystem.Open`: offer the overlay to each folder's
`OverlayFS` in order; the first that accepts wins; if all reject, the
state is unchanged and `os.ErrNotExist` surfaces. -/
def fsOpen : List OverlayFS → Overlay → Except Unit (List OverlayFS × Handle)
  | [], _ => .error ()
  | fs :: rest, o =>
    match fs.Open o with
    | .ok (fs', oo) => .ok (fs' :: rest, oo.toHandle)
    | .error _ =>
      match fsOpen rest o with
      | .ok (rest', h) => .ok (fs :: rest', h)
      | .error e => .error e

/-- Embedding of `fileManager.Change`: open the overlay through the
facade, stat the resulting handle's URI through the composed source, and
`internalparse` it (recursing through imports with the given fuel). -/
def managerChange (pe : String → Ast × List Diagnostic)
    (lower : String → Option (String × Handle)) (fuel : Nat)
    (st : ServerState) (o : Overlay) : Option (ServerState × Except Unit ParsedFile) :=
  match fsOpen st.folders o with
  | .error _ => some (st, .error ())
  | .ok (folders', fh) =>
    match sourceResolve folders' lower fh.uri with
    | none => some (⟨folders', st.lsp⟩, .error ())
    | some (path, _) =>
      match internalparseF pe (readFileFuel pe folders' lower fuel) st.lsp path fh with
      | none => none
      | some (lsp', .error e) => some (⟨folders', lsp'⟩, .error e)
      | some (lsp', .ok f) => some (⟨folders', lsp'⟩, .ok f)

/-- The parameters of a `DidChange` request the handler reads: the
document URI and version, and the text of each content change. -/
structure DidChangeParams where
  uri : String
  version : Int
  contentChanges : List String
  deriving DecidableEq, Repr

/-- Embedding of `server.DidChange`: an empty `ContentChanges` list
returns success immediately; otherwise a fresh overlay is built from the
first change's text and handed to `fileManager.Change`.  The result pairs
the new server state with `some ()` on error. -/
def didChange (pe : String → Ast × List Diagnostic)
    (lower : String → Option (String × Handle)) (fuel : Nat)
    (st : ServerState) (p : DidChangeParams) : Option (ServerState × Option Unit) :=
  match p.contentChanges with
  | [] => some (st, none)
  | c :: _ =>
    match managerChange pe lower fuel st ⟨"", p.uri, c, p.version⟩ with
    | none => none
    | some (st', .error _) => some (st', some ())
    | some (st', .ok _) => some (st', none)

/-! ## Helper lemmas: `Parser.Parse` always re-parses

`Parser.Parse` resets a cached file (clearing its AST and setting its
version back to `FileInitVersion`) before calling `File.Parse`, so
`needReParse` is true on every path and the version-skip in
`File.Parse` step 3 is unreachable from `Parser.Parse`. -/

theorem parse_after_reset (pe : String → Ast × List Diagnostic)
    (f0 : ParsedFile) (h : Handle) (c : String) (hc : h.content = some c) :
    ∃ f2 ds, (f0.reset (some h)).parse pe = .ok (f2, ds) ∧
      f2.imports = (pe c).1.imports ∧ f2.version = h.version ∧
      f2.content = some c := by
  have hh : (f0.reset (some h)).handle = h := rfl
  have hnr : (f0.reset (some h)).needReParse = true := by
    simp [ParsedFile.needReParse, ParsedFile.reset]
  have hEq : (f0.reset (some h)).parse pe =
      .ok ({ f0.reset (some h) with
        content := some c
        version := (f0.reset (some h)).handle.version
        fn := some (pe c).1
        pkg := match (pe c).1.pkg with
          | some p => some p
          | none => (f0.reset (some h)).pkg
        imports := (f0.reset (some h)).imports ++ (pe c).1.imports },
        if (f0.reset (some h)).silent then [] else (pe c).2) := by
    unfold ParsedFile.parse
    rw [hnr, hh, hc]
    simp
    exact hh.symm
  refine ⟨_, _, hEq, ?_, ?_, ?_⟩
  · show (f0.reset (some h)).imports ++ (pe c).1.imports = (pe c).1.imports
    simp [ParsedFile.reset]
  · rfl
  · rfl

theorem parse_of_newFile (pe : String → Ast × List Diagnostic)
    (uri : String) (h : Handle) (c : String) (hc : h.content = some c) :
    ∃ f2 ds, (newFile uri h).parse pe = .ok (f2, ds) ∧
      f2.imports = (pe c).1.imports ∧ f2.version = h.version ∧
      f2.content = some c := by
  have hh : (newFile uri h).handle = h := rfl
  have hnr : (newFile uri h).needReParse = true := by
    simp [ParsedFile.needReParse, newFile]
  have hEq : (newFile uri h).parse pe =
      .ok ({ newFile uri h with
        content := some c
        version := (newFile uri h).handle.version
        fn := some (pe c).1
        pkg := match (pe c).1.pkg with
          | some p => some p
          | none => (newFile uri h).pkg
        imports := (newFile uri h).imports ++ (pe c).1.imports },
        if (newFile uri h).silent then [] else (pe c).2) := by
    unfold ParsedFile.parse
    rw [hnr, hh, hc]
    simp
    exact hh.symm
  refine ⟨_, _, hEq, ?_, ?_, ?_⟩
  · show (newFile uri h).imports ++ (pe c).1.imports = (pe c).1.imports
    simp [newFile]
  · rfl
  · rfl

theorem parserParse_ok_of_content (pe : String → Ast × List Diagnostic)
    (st : ParserState) (dc : DiagnosticClient) (uri : String) (h : Handle)
    (c : String) (hc : h.content = some c) :
    ∃ pst dc2 f, parserParse pe st dc uri h = (pst, dc2, .ok f) ∧
      f.imports = (pe c).1.imports := by
  cases hlk : lookupA st.files uri with
  | some f0 =>
    obtain ⟨f2, ds, hp, himp, _, _⟩ := parse_after_reset pe f0 h c hc
    simp only [parserParse, hlk, hp]
    exact ⟨_, _, f2, rfl, himp⟩
  | none =>
    obtain ⟨f2, ds, hp, himp, _, _⟩ := parse_of_newFile pe uri h c hc
    simp only [parserParse, hlk, hp]
    exact ⟨_, _, f2, rfl, himp⟩

/-! ## Theorems for C1, C2, C3 and C10 -/

/-- A two-file world with a circular import: `a.proto` imports
`b.proto` and `b.proto` imports `a.proto`. -/
def envCyc : String → Option (String × Handle) := fun u =>
  if u = "a.proto" then some ("a.proto", ⟨"file:///w/a.proto", -1, some "import b"⟩)
  else if u = "b.proto" then some ("b.proto", ⟨"file:///w/b.proto", -1, some "import a"⟩)
  else none

/-- The external parser for the two-file cyclic world. -/
def peCyc : String → Ast × List Diagnostic := fun c =>
  if c = "import b" then (⟨none, ["b.proto"]⟩, [])
  else if c = "import a" then (⟨none, ["a.proto"]⟩, [])
  else (⟨none, []⟩, [])

theorem readFileStep_resolved (pe : String → Ast × List Diagnostic)
    (folders : List OverlayFS) (lower : String → Option (String × Handle))
    (next : LspState → String → Option (LspState × Except Unit ParsedFile))
    (st : LspState) (uri path : String) (h : Handle)
    (hres : sourceResolve folders lower uri = some (path, h)) :
    readFileStep pe folders lower next st uri = internalparseF pe next st path h := by
  unfold readFileStep
  rw [hres]

theorem internalparseF_parsed (pe : String → Ast × List Diagnostic)
    (next : LspState → String → Option (LspState × Except Unit ParsedFile))
    (st : LspState) (path : String) (h : Handle)
    (pst : ParserState) (dc2 : DiagnosticClient) (f : ParsedFile)
    (hp : parserParse pe st.parser (st.dc.Reset h) (normURI path) h = (pst, dc2, .ok f)) :
    internalparseF pe next st path h =
      match readImportsWith next ⟨pst, dc2.Notify h⟩ f.importsNormalized with
      | none => none
      | some (st2, some e) => some (st2, .error e)
      | some (st2, none) => some (st2, .ok f) := by
  unfold internalparseF
  rw [hp]

theorem readFile_cyclic_helper :
    ∀ (n : Nat) (st : LspState),
      readFileFuel peCyc [] envCyc n st "a.proto" = none ∧
      readFileFuel peCyc [] envCyc n st "b.proto" = none := by
  intro n
  induction n with
  | zero => intro st; exact ⟨rfl, rfl⟩
  | succ n ih =>
    intro st
    constructor
    · show readFileStep peCyc [] envCyc (readFileFuel peCyc [] envCyc n) st "a.proto" = none
      rw [readFileStep_resolved peCyc [] envCyc _ st "a.proto" "a.proto"
        ⟨"file:///w/a.proto", -1, some "import b"⟩ rfl]
      obtain ⟨pst, dc2, f, hp, himp⟩ := parserParse_ok_of_content peCyc st.parser
        (st.dc.Reset ⟨"file:///w/a.proto", -1, some "import b"⟩) (normURI "a.proto")
        ⟨"file:///w/a.proto", -1, some "import b"⟩ "import b" rfl
      rw [internalparseF_parsed peCyc _ st "a.proto"
        ⟨"file:///w/a.proto", -1, some "import b"⟩ pst dc2 f hp]
      have hif : f.importsNormalized = ["b.proto"] := by
        simp only [ParsedFile.importsNormalized, himp]
        decide
      rw [hif]
      unfold readImportsWith
      rw [(ih ⟨pst, dc2.Notify ⟨"file:///w/a.proto", -1, some "import b"⟩⟩).2]
    · show readFileStep peCyc [] envCyc (readFileFuel peCyc [] envCyc n) st "b.proto" = none
      rw [readFileStep_resolved peCyc [] envCyc _ st "b.proto" "b.proto"
        ⟨"file:///w/b.proto", -1, some "import a"⟩ rfl]
      obtain ⟨pst, dc2, f, hp, himp⟩ := parserParse_ok_of_content peCyc st.parser
        (st.dc.Reset ⟨"file:///w/b.proto", -1, some "import a"⟩) (normURI "b.proto")
        ⟨"file:///w/b.proto", -1, some "import a"⟩ "import a" rfl
      rw [internalparseF_parsed peCyc _ st "b.proto"
        ⟨"file:///w/b.proto", -1, some "import a"⟩ pst dc2 f hp]
      have hif : f.importsNormalized = ["a.proto"] := by
        simp only [ParsedFile.importsNormalized, himp]
        decide
      rw [hif]
      unfold readImportsWith
      rw [(ih ⟨pst, dc2.Notify ⟨"file:///w/b.proto", -1, some "import a"⟩⟩).1]

/-- C1, evaluated at the failing input.  On the circular
chain where `a.proto` and `b.proto` import each other, the recursive
import-parsing walk started by `ReadFile` never completes: for every amount of fuel it runs out, because
`Parser.Parse` resets a cached file's version to `FileInitVersion` and
its AST to nil before `File.Parse`, so the skip of step 3 never fires
and each visit re-parses and recurses again.  The claim asserts the walk
terminates. -/
theorem readFile_cyclic_imports_diverges :
    ∀ n : Nat, readFileFuel peCyc [] envCyc n ⟨⟨[], []⟩, ⟨[], []⟩⟩ "a.proto" = none :=
  fun n => (readFile_cyclic_helper n ⟨⟨[], []⟩, ⟨[], []⟩⟩).1

/-- C2, evaluated at the failing input.  The cache holds a ParsedFile
for `a.proto` with a non-null AST and version 5; `Parse` is called with a
handle at version 3.  The claim demands a skip that leaves content,
version, AST and imports unchanged; the code resets and re-parses, so the
stored version drops to 3 and the content is replaced by the new
handle's. -/
theorem parserParse_reparses_despite_current_version :
    (lookupA (parserParse (fun _ => (⟨none, []⟩, []))
        ⟨[("a.proto", ⟨"a.proto", ⟨"file:///w/a.proto", 5, some "old"⟩, false,
          ⟨"file:///w/a.proto", 5, some "old"⟩, some "old", 5, some ⟨none, []⟩,
          none, []⟩)], [("", ["a.proto"])]⟩
        ⟨[], []⟩ "a.proto" ⟨"file:///w/a.proto", 3, some "new"⟩).1.files
      "a.proto").map ParsedFile.version = some 3 ∧
    (lookupA (parserParse (fun _ => (⟨none, []⟩, []))
        ⟨[("a.proto", ⟨"a.proto", ⟨"file:///w/a.proto", 5, some "old"⟩, false,
          ⟨"file:///w/a.proto", 5, some "old"⟩, some "old", 5, some ⟨none, []⟩,
          none, []⟩)], [("", ["a.proto"])]⟩
        ⟨[], []⟩ "a.proto" ⟨"file:///w/a.proto", 3, some "new"⟩).1.files
      "a.proto").map ParsedFile.content = some (some "new") ∧
    ((3 : Int) ≠ 5 ∧ (some "new" : Option String) ≠ some "old") := by
  refine ⟨?_, ?_, by decide, by decide⟩ <;> decide

/-- C3, evaluated at the failing input.  Starting from an empty cache,
`Parse("a.proto", handle@5)` then `Parse("a.proto", handle@3)` is a
sequence of completed Parse calls after which the observed versions are
5 then 3 — a strict decrease, because the reset erases the cached
version before each parse and the commit copies the handle's version.
The claim asserts the version is non-decreasing for any handle
sequence. -/
theorem parserParse_version_not_monotonic :
    (lookupA (parserParse (fun _ => (⟨none, []⟩, [])) ⟨[], []⟩ ⟨[], []⟩
        "a.proto" ⟨"file:///w/a.proto", 5, some "v5"⟩).1.files "a.proto").map
      ParsedFile.version = some 5 ∧
    (lookupA (parserParse (fun _ => (⟨none, []⟩, []))
        (parserParse (fun _ => (⟨none, []⟩, [])) ⟨[], []⟩ ⟨[], []⟩
          "a.proto" ⟨"file:///w/a.proto", 5, some "v5"⟩).1
        ⟨[], []⟩ "a.proto" ⟨"file:///w/a.proto", 3, some "v3"⟩).1.files
      "a.proto").map ParsedFile.version = some 3 ∧
    ¬ ((5 : Int) ≤ 3) := by
  refine ⟨?_, ?_, by decide⟩ <;> decide

/-- C10.  A `DidChange` request whose `ContentChanges` list is empty
returns success with the server state unchanged: no overlay is opened or
modified, no parse runs, and no diagnostics are published. -/
theorem didChange_empty_changes_noop (pe : String → Ast × List Diagnostic)
    (lower : String → Option (String × Handle)) (fuel : Nat)
    (st : ServerState) (p : DidChangeParams) (h : p.contentChanges = []) :
    didChange pe lower fuel st p = some (st, none) := by
  unfold didChange
  rw [h]

/-- Witness for C10 at a concrete request and server state. -/
theorem didChange_empty_changes_noop_witness :
    (DidChangeParams.mk "file:///w/a.proto" 2 []).contentChanges = [] ∧
    didChange (fun _ => (⟨none, []⟩, [])) (fun _ => none) 0
        ⟨[], ⟨⟨[], []⟩, ⟨[], []⟩⟩⟩ ⟨"file:///w/a.proto", 2, []⟩ =
      some (⟨[], ⟨⟨[], []⟩, ⟨[], []⟩⟩⟩, none) :=
  ⟨rfl, didChange_empty_changes_noop (fun _ => (⟨none, []⟩, [])) (fun _ => none) 0
    ⟨[], ⟨⟨[], []⟩, ⟨[], []⟩⟩⟩ ⟨"file:///w/a.proto", 2, []⟩ rfl⟩

end BufLsp
